import Mathlib

/-!
A shallow embedding of `src/data/dataloader.py`: the `DataLoader` class, its
batching loop in `__iter__` (with the inner helpers `combine_batch_dicts`,
`run_id_to_int` and `batch_to_tensor`) and its `__len__` method.

Python values are modelled explicitly: a field value is either an identifier
string or a numeric array carrying its shape together with a flag recording
whether it is already a `torch.Tensor`.  Exceptions are modelled with
`Except` and `Option`; the bare `except:` of `batch_to_tensor` is modelled by
the total fallback `tensorFallback`.  The float tensor built from parsed run
ids is kept as the exact list of parsed integers (the conversion of the
small integers appearing here to floats is exact).  The random permutation
drawn by `np.random.permutation` under `shuffle=True` is modelled
nondeterministically: theorems quantify over every permutation of
`List.range count`.
-/

namespace DL

/-- A field value as it reaches the batch combiner: an identifier string, or a
numeric array carrying its shape and whether it is already a torch Tensor. -/
inductive Val where
  | str (s : String)
  | arr (isTensor : Bool) (shape : List Nat)
deriving DecidableEq

/-- A value of an emitted batch: the identifier key becomes a 1-D float tensor
holding the parsed integers (kept as exact integers here), every other key
becomes a tensor with the recorded shape. -/
inductive TVal where
  | floats (ids : List Int)
  | tensor (shape : List Nat)
deriving DecidableEq

/-- The Python exceptions that can escape `batch_to_tensor`: `ValueError` or
`AttributeError` from `int(run_id.split("_")[-1])`, `IndexError` from
`values[0]` on an empty list, and `TypeError` from `Tensor(values)` on a
value that is not array-like. -/
inductive BatchErr where
  | identifierFormat
  | indexError
  | typeError
deriving DecidableEq

/-- A dataset record: a Python dict, i.e. an insertion-ordered association
list from field names to values. -/
abbrev Record := List (String × Val)

/-- Association-list lookup, mirroring Python dict indexing. -/
def lookupK (k : String) : List (String × β) → Option β
  | [] => none
  | (k2, v) :: l => if k2 = k then some v else lookupK k l

/-- Decimal parse of a nonempty all-digit character list, the digit core of
Python `int`. -/
def parseDigits (cs : List Char) : Option Nat :=
  if cs ≠ [] ∧ cs.all Char.isDigit then
    some (cs.foldl (fun a c => 10 * a + (c.toNat - 48)) 0)
  else none

/-- Python `str.split(sep)` for a one-character separator, on the character
list of the string: always nonempty, with empty chunks between adjacent
separators and at the ends, as in Python. -/
def splitOnChar (c : Char) : List Char → List (List Char)
  | [] => [[]]
  | a :: rest =>
    if a = c then [] :: splitOnChar c rest
    else
      match splitOnChar c rest with
      | [] => [[a]]
      | g :: gs => (a :: g) :: gs

/-- Leading and trailing whitespace removal, as Python `int` applies to its
argument before parsing. -/
def trimChars (cs : List Char) : List Char :=
  ((cs.dropWhile Char.isWhitespace).reverse.dropWhile Char.isWhitespace).reverse

/-- Python `int(s)` on the strings this program feeds it: surrounding
whitespace is stripped, an optional sign may precede the digits, anything
else raises `ValueError`, modelled as `none`. -/
def pyInt (s : String) : Option Int :=
  match trimChars s.data with
  | '+' :: cs => (parseDigits cs).map (fun n => (n : Int))
  | '-' :: cs => (parseDigits cs).map (fun n => -(n : Int))
  | cs => (parseDigits cs).map (fun n => (n : Int))

/-- Embeds `run_id_to_int`: `int(run_id.split("_")[-1])`. -/
def run_id_to_int (run_id : String) : Option Int :=
  pyInt (String.mk ((splitOnChar '_' run_id.data).getLastD []))

/-- `run_id_to_int` applied to one batch value: a non-string value raises
`AttributeError` on `.split`, modelled as `none`. -/
def runIdVal : Val → Option Int
  | Val.str s => run_id_to_int s
  | Val.arr _ _ => none

/-- A Python list comprehension with a fallible element computation: the list
is produced unless some element raises. -/
def mapOpt (f : α → Option β) : List α → Option (List β)
  | [] => some []
  | a :: l =>
    match f a, mapOpt f l with
    | some b, some bs => some (b :: bs)
    | _, _ => none

/-- `torch.stack` on the list of per-record values of one key: it succeeds
exactly when the list is nonempty and every element is a Tensor of one common
shape, producing that shape with a new leading batch axis; otherwise it
raises (`TypeError` for a non-Tensor element, a runtime error for a shape
mismatch), modelled as `none`. -/
def stackShapes : List Val → Option (List Nat)
  | [] => none
  | Val.str _ :: _ => none
  | Val.arr isT s :: vs =>
    if isT ∧ vs.all (fun u => u = Val.arr true s) then some ((vs.length + 1) :: s)
    else none

/-- The bare `except:` branch of `batch_to_tensor`: `values = values[0]`,
then `Tensor(values)` when it is not already a Tensor.  An empty list raises
`IndexError`; a string raises `TypeError` inside `Tensor(...)`; an array
keeps its own shape, so the coercion adds no batch axis. -/
def tensorFallback : List Val → Except BatchErr TVal
  | [] => Except.error BatchErr.indexError
  | Val.arr _ s :: _ => Except.ok (TVal.tensor s)
  | Val.str _ :: _ => Except.error BatchErr.typeError

/-- One key of `batch_to_tensor`: the `run_id` key is parsed with
`run_id_to_int` into a 1-D float tensor; any other key is stacked, and on any
stacking failure the fallback takes the first value alone. -/
def fieldToTensor (key : String) (values : List Val) : Except BatchErr TVal :=
  if key = "run_id" then
    match mapOpt runIdVal values with
    | some ids => Except.ok (TVal.floats ids)
    | none => Except.error BatchErr.identifierFormat
  else
    match stackShapes values with
    | some s => Except.ok (TVal.tensor s)
    | none => tensorFallback values

/-- Sequencing of fallible steps in source order, stopping at the first
raised exception, as the Python loops here do. -/
def traverseExcept (f : α → Except ε β) : List α → Except ε (List β)
  | [] => Except.ok []
  | a :: l =>
    match f a with
    | Except.error e => Except.error e
    | Except.ok b =>
      match traverseExcept f l with
      | Except.error e => Except.error e
      | Except.ok bs => Except.ok (b :: bs)

/-- Embeds `batch_to_tensor`: each key of the combined dict is converted in
order and any exception propagates. -/
def batch_to_tensor (batch : List (String × List Val)) :
    Except BatchErr (List (String × TVal)) :=
  traverseExcept (fun kv => (fieldToTensor kv.1 kv.2).map (fun t => (kv.1, t))) batch

/-- `batch_dict[key].append(value)` preceded by `batch_dict[key] = []` when
the key is new: an existing key keeps its position, a new key goes to the
end, exactly Python dict insertion order. -/
def insertVal (bd : List (String × List Val)) (k : String) (v : Val) :
    List (String × List Val) :=
  match bd with
  | [] => [(k, [v])]
  | (k2, vs) :: rest =>
    if k2 = k then (k2, vs ++ [v]) :: rest else (k2, vs) :: insertVal rest k v

/-- The inner loop of `combine_batch_dicts` over one record's items. -/
def foldRecord (bd : List (String × List Val)) (r : Record) :
    List (String × List Val) :=
  r.foldl (fun bd2 kv => insertVal bd2 kv.1 kv.2) bd

/-- Embeds `combine_batch_dicts`: a list of record dicts becomes one dict
from each key to the list of that key's values in record order. -/
def combine_batch_dicts (batch : List Record) : List (String × List Val) :=
  batch.foldl foldRecord []

/-- The batching loop of `__iter__`: elements are appended to the current
group, a full group is emitted when its length reaches `bs`, and a leftover
group is emitted at the end exactly when it is nonempty and `dropLast` is
false.  The element type is abstract; instantiated with dataset indices it
describes the grouping of one pass. -/
def iterGo (bs : Nat) (dropLast : Bool) : List α → List α → List (List α)
  | acc, [] => if 0 < acc.length ∧ dropLast = false then [acc] else []
  | acc, x :: xs =>
    if (acc ++ [x]).length = bs then (acc ++ [x]) :: iterGo bs dropLast [] xs
    else iterGo bs dropLast (acc ++ [x]) xs

/-- The dataset collaborator: a record count and random access by index. -/
structure DatasetM where
  count : Nat
  get : Nat → Record

/-- The `DataLoader` configuration fixed by `__init__`. -/
structure DataLoader where
  dataset : DatasetM
  batch_size : Nat
  shuffle : Bool
  drop_last : Bool

/-- Embeds `__len__`: `count // batch_size` under `drop_last`, otherwise
`int(np.ceil(count / batch_size))`, written as exact ceiling division. -/
def DataLoader.len (D : DataLoader) : Nat :=
  if D.drop_last then D.dataset.count / D.batch_size
  else (D.dataset.count + D.batch_size - 1) / D.batch_size

/-- Embeds one full pass of `__iter__` along the traversal `order`: the index
groups formed by the batching loop are each combined and converted; the pass
yields the whole batch list unless some group raises. -/
def DataLoader.iter (D : DataLoader) (order : List Nat) :
    Except BatchErr (List (List (String × TVal))) :=
  traverseExcept (fun g => batch_to_tensor (combine_batch_dicts (g.map D.dataset.get)))
    (iterGo D.batch_size D.drop_last [] order)

/-- The traversal orders `__iter__` can draw: `range(len(dataset))` without
shuffling, any outcome of `np.random.permutation` with it. -/
def validOrder (D : DataLoader) (order : List Nat) : Prop :=
  if D.shuffle then order.Perm (List.range D.dataset.count)
  else order = List.range D.dataset.count

/-! Helper lemmas. -/

/-- A fallible list comprehension raises as soon as one element raises. -/
theorem mapOpt_eq_none (f : α → Option β) {l : List α} {v : α}
    (hv : v ∈ l) (hf : f v = none) : mapOpt f l = none := by
  induction l with
  | nil => cases hv
  | cons a t ih =>
    rcases List.mem_cons.mp hv with h | h
    · subst h
      unfold mapOpt
      rw [hf]
    · unfold mapOpt
      rw [ih h]
      cases f a <;> rfl

/-- A sequence of fallible steps that finishes produced one output per
input. -/
theorem traverseExcept_ok_length (f : α → Except ε β) :
    ∀ (l : List α) (out : List β), traverseExcept f l = Except.ok out →
      out.length = l.length := by
  intro l
  induction l with
  | nil =>
    intro out h
    unfold traverseExcept at h
    cases h
    rfl
  | cons a t ih =>
    intro out h
    unfold traverseExcept at h
    cases hfa : f a with
    | error e => rw [hfa] at h; cases h
    | ok b =>
      rw [hfa] at h
      cases hm : traverseExcept f t with
      | error e => rw [hm] at h; cases h
      | ok bs =>
        rw [hm] at h
        cases h
        simp [ih bs hm]

/-- Unfolding of the batching loop on an exhausted iterator. -/
theorem iterGo_nil (bs : Nat) (dl : Bool) (acc : List α) :
    iterGo bs dl acc [] = if 0 < acc.length ∧ dl = false then [acc] else [] := rfl

/-- Unfolding of one step of the batching loop. -/
theorem iterGo_cons (bs : Nat) (dl : Bool) (acc : List α) (x : α) (xs : List α) :
    iterGo bs dl acc (x :: xs) =
      if (acc ++ [x]).length = bs then (acc ++ [x]) :: iterGo bs dl [] xs
      else iterGo bs dl (acc ++ [x]) xs := rfl

/-- The number of groups the batching loop emits: one per full chunk, plus
one for a nonempty remainder when the last group is kept. -/
theorem iterGo_length (bs : Nat) (dl : Bool) :
    ∀ (l acc : List α), acc.length < bs →
      (iterGo bs dl acc l).length =
        (acc.length + l.length) / bs +
          (if dl = false ∧ (acc.length + l.length) % bs ≠ 0 then 1 else 0) := by
  intro l
  induction l with
  | nil =>
    intro acc ha
    rw [iterGo_nil]
    have h0 : acc.length / bs = 0 := Nat.div_eq_of_lt ha
    have h1 : acc.length % bs = acc.length := Nat.mod_eq_of_lt ha
    simp only [List.length_nil, Nat.add_zero, h0, h1]
    cases dl with
    | false => simp; split_ifs <;> simp_all
    | true => simp
  | cons x xs ih =>
    intro acc ha
    rw [iterGo_cons]
    by_cases hb : (acc ++ [x]).length = bs
    · rw [if_pos hb]
      have hba : acc.length + 1 = bs := by simpa using hb
      have hbs : 0 < bs := by omega
      have hi := ih [] (by simpa using hbs)
      simp only [List.length_nil, Nat.zero_add] at hi
      rw [List.length_cons, hi]
      simp only [List.length_cons]
      have e1 : acc.length + (xs.length + 1) = xs.length + bs := by omega
      simp only [e1, Nat.add_div_right _ hbs, Nat.add_mod_right]
      split_ifs <;> omega
    · rw [if_neg hb]
      have hlen : (acc ++ [x]).length = acc.length + 1 := by simp
      have hb2 : (acc ++ [x]).length < bs := by omega
      rw [ih (acc ++ [x]) hb2]
      have e : (acc ++ [x]).length + xs.length = acc.length + (x :: xs).length := by
        simp only [List.length_append, List.length_cons, List.length_nil]
        omega
      simp only [e]

/-- With `drop_last` off, the groups of one pass cover the traversal order
exactly, in order. -/
theorem iterGo_flatten_false (bs : Nat) :
    ∀ (l acc : List α), (iterGo bs false acc l).flatten = acc ++ l := by
  intro l
  induction l with
  | nil =>
    intro acc
    rw [iterGo_nil]
    by_cases hz : 0 < acc.length
    · simp [hz]
    · have hnil : acc = [] := List.length_eq_zero.mp (by omega)
      simp [hnil]
  | cons x xs ih =>
    intro acc
    rw [iterGo_cons]
    by_cases hb : (acc ++ [x]).length = bs
    · rw [if_pos hb]
      rw [List.flatten_cons, ih]
      simp
    · rw [if_neg hb]
      rw [ih]
      simp

/-- With `drop_last` on, the groups of one pass cover exactly the longest
prefix of the traversal order whose length is a multiple of the batch
size. -/
theorem iterGo_flatten_true (bs : Nat) :
    ∀ (l acc : List α), acc.length < bs →
      (iterGo bs true acc l).flatten =
        (acc ++ l).take (bs * ((acc.length + l.length) / bs)) := by
  intro l
  induction l with
  | nil =>
    intro acc ha
    rw [iterGo_nil]
    have h0 : acc.length / bs = 0 := Nat.div_eq_of_lt ha
    simp [h0]
  | cons x xs ih =>
    intro acc ha
    rw [iterGo_cons]
    by_cases hb : (acc ++ [x]).length = bs
    · rw [if_pos hb]
      have hba : acc.length + 1 = bs := by simpa using hb
      have hbs : 0 < bs := by omega
      rw [List.flatten_cons, ih [] (by simpa using hbs)]
      simp only [List.length_nil, Nat.zero_add, List.nil_append, List.length_cons]
      have e1 : acc.length + (xs.length + 1) = xs.length + bs := by omega
      rw [e1, Nat.add_div_right _ hbs, Nat.mul_add, Nat.mul_one]
      have e2 : acc ++ x :: xs = (acc ++ [x]) ++ xs := by simp
      rw [e2]
      have e3 : bs * (xs.length / bs) + bs = (acc ++ [x]).length + bs * (xs.length / bs) := by
        omega
      rw [e3, List.take_append]
    · rw [if_neg hb]
      have hlen : (acc ++ [x]).length = acc.length + 1 := by simp
      have hb2 : (acc ++ [x]).length < bs := by omega
      rw [ih (acc ++ [x]) hb2]
      have e : (acc ++ [x]).length + xs.length = acc.length + (x :: xs).length := by
        simp only [List.length_append, List.length_cons, List.length_nil]
        omega
      rw [e]
      simp

/-- With `drop_last` on, every emitted group is full: a nonempty remainder is
discarded, never emitted short. -/
theorem iterGo_full_of_dropLast (bs : Nat) :
    ∀ (l acc : List α), acc.length < bs →
      ∀ g ∈ iterGo bs true acc l, g.length = bs := by
  intro l
  induction l with
  | nil =>
    intro acc ha g hg
    rw [iterGo_nil] at hg
    simp at hg
  | cons x xs ih =>
    intro acc ha g hg
    rw [iterGo_cons] at hg
    by_cases hb : (acc ++ [x]).length = bs
    · rw [if_pos hb] at hg
      have hbs : 0 < bs := by
        have : (acc ++ [x]).length = acc.length + 1 := by simp
        omega
      rcases List.mem_cons.mp hg with h | h
      · rw [h]
        exact hb
      · exact ih [] (by simpa using hbs) g h
    · rw [if_neg hb] at hg
      have hlen : (acc ++ [x]).length = acc.length + 1 := by simp
      exact ih (acc ++ [x]) (by omega) g hg

/-- Every emitted group except possibly the last is full, whatever the
`drop_last` flag. -/
theorem iterGo_dropLast_full (bs : Nat) (dl : Bool) :
    ∀ (l acc : List α), acc.length < bs →
      ∀ g ∈ (iterGo bs dl acc l).dropLast, g.length = bs := by
  intro l
  induction l with
  | nil =>
    intro acc ha g hg
    rw [iterGo_nil] at hg
    split_ifs at hg <;> simp at hg
  | cons x xs ih =>
    intro acc ha g hg
    rw [iterGo_cons] at hg
    by_cases hb : (acc ++ [x]).length = bs
    · rw [if_pos hb] at hg
      have hbs : 0 < bs := by
        have : (acc ++ [x]).length = acc.length + 1 := by simp
        omega
      cases hrest : iterGo bs dl ([] : List α) xs with
      | nil =>
        rw [hrest] at hg
        simp at hg
      | cons y ys =>
        rw [hrest, List.dropLast_cons₂] at hg
        rcases List.mem_cons.mp hg with h | h
        · rw [h]
          exact hb
        · rw [← hrest] at h
          exact ih [] (by simpa using hbs) g h
    · rw [if_neg hb] at hg
      have hlen : (acc ++ [x]).length = acc.length + 1 := by simp
      exact ih (acc ++ [x]) (by omega) g hg

/-- With `drop_last` off and a traversal length that is no multiple of the
batch size, the last emitted group holds exactly the remainder. -/
theorem iterGo_getLast_length (bs : Nat) :
    ∀ (l acc : List α), acc.length < bs →
      (acc.length + l.length) % bs ≠ 0 →
      ((iterGo bs false acc l).getLast?).map List.length =
        some ((acc.length + l.length) % bs) := by
  intro l
  induction l with
  | nil =>
    intro acc ha hm
    rw [iterGo_nil]
    have h1 : acc.length % bs = acc.length := Nat.mod_eq_of_lt ha
    have hz : 0 < acc.length := by
      simp only [List.length_nil, Nat.add_zero, h1] at hm
      omega
    simp only [List.length_nil, Nat.add_zero, h1]
    simp [hz]
  | cons x xs ih =>
    intro acc ha hm
    rw [iterGo_cons]
    by_cases hb : (acc ++ [x]).length = bs
    · rw [if_pos hb]
      have hba : acc.length + 1 = bs := by simpa using hb
      have hbs : 0 < bs := by omega
      have e1 : acc.length + (x :: xs).length = xs.length + bs := by
        simp
        omega
      rw [e1, Nat.add_mod_right] at hm ⊢
      have hi := ih [] (by simpa using hbs) (by simpa using hm)
      simp only [List.length_nil, Nat.zero_add] at hi
      cases hrest : iterGo bs false ([] : List α) xs with
      | nil =>
        rw [hrest] at hi
        simp at hi
      | cons y ys =>
        rw [hrest] at hi
        rw [List.getLast?_cons_cons]
        exact hi
    · rw [if_neg hb]
      have hlen : (acc ++ [x]).length = acc.length + 1 := by simp
      have hb2 : (acc ++ [x]).length < bs := by omega
      have e : (acc ++ [x]).length + xs.length = acc.length + (x :: xs).length := by
        simp
        omega
      rw [← e] at hm ⊢
      exact ih (acc ++ [x]) hb2 hm

/-- Ceiling division written the way `__len__` computes it, split into floor
plus a remainder indicator. -/
theorem ceil_div_split (N bs : Nat) (hbs : 1 ≤ bs) :
    (N + bs - 1) / bs = N / bs + (if N % bs ≠ 0 then 1 else 0) := by
  have hmod := Nat.div_add_mod N bs
  have hlt : N % bs < bs := Nat.mod_lt N (by omega)
  by_cases hr : N % bs = 0
  · rw [if_neg (by simpa using hr)]
    have e : N + bs - 1 = bs * (N / bs) + (bs - 1) := by
      conv_lhs => rw [← hmod]
      rw [hr, Nat.add_zero, Nat.add_sub_assoc hbs]
    rw [e, Nat.mul_add_div (by omega)]
    rw [Nat.div_eq_of_lt (show bs - 1 < bs by omega)]
  · rw [if_pos (by simpa using hr)]
    have e : N + bs - 1 = bs * (N / bs + 1) + (N % bs - 1) := by
      conv_lhs => rw [← hmod]
      rw [Nat.mul_add, Nat.mul_one]
      generalize bs * (N / bs) = A
      omega
    rw [e, Nat.mul_add_div (by omega)]
    rw [Nat.div_eq_of_lt (show N % bs - 1 < bs by omega)]

/-- Both traversal modes draw a permutation of the index range: the identity
one without shuffling, any one with it. -/
theorem validOrder_perm (D : DataLoader) (order : List Nat)
    (h : validOrder D order) : order.Perm (List.range D.dataset.count) := by
  unfold validOrder at h
  split_ifs at h
  · exact h
  · rw [h]

/-! Claim theorems. -/

/-- C1: the spec demands that a group of more than one record with differing
shapes for one non-identifier field make the combination step fail with a
hard ShapeMismatchError and never emit a batch built from a subset of the
group.  The code does the opposite: the bare `except:` around `stack`
swallows the mismatch and the emitted batch holds just the first record's
value.  This theorem evaluates the code at the spec's own failing input — a
field `x` with Tensor shapes (3,4) and (3,5) in one group — and shows the
step returning the first record's (3,4) tensor instead of an error. -/
theorem C1_shape_mismatch_fallback :
    fieldToTensor "x" [Val.arr true [3, 4], Val.arr true [3, 5]] =
      Except.ok (TVal.tensor [3, 4]) := rfl

/-- C2: `__len__` returns `floor(count / batch_size)` under `drop_last` and
`ceil(count / batch_size)` otherwise, and this equals both the number of
groups the batching loop forms and the number of batches a full successful
pass of `__iter__` yields, for every traversal order of the dataset's
length. -/
theorem C2_length_agreement (D : DataLoader) (order : List Nat)
    (hbs : 1 ≤ D.batch_size) (hord : order.length = D.dataset.count) :
    D.len = (if D.drop_last then D.dataset.count / D.batch_size
             else (D.dataset.count + D.batch_size - 1) / D.batch_size) ∧
    (iterGo D.batch_size D.drop_last ([] : List Nat) order).length = D.len ∧
    (∀ out, D.iter order = Except.ok out → out.length = D.len) := by
  have hgo : (iterGo D.batch_size D.drop_last ([] : List Nat) order).length = D.len := by
    have h := iterGo_length D.batch_size D.drop_last order [] (by simpa using hbs)
    rw [h]
    simp only [List.length_nil, Nat.zero_add, hord]
    unfold DataLoader.len
    cases hdl : D.drop_last
    · simp only [Bool.false_eq_true, if_false]
      rw [ceil_div_split D.dataset.count D.batch_size hbs]
      simp
    · simp
  refine ⟨rfl, hgo, ?_⟩
  intro out hout
  unfold DataLoader.iter at hout
  rw [traverseExcept_ok_length _ _ out hout]
  exact hgo

/-- Witness for C2: a dataset of five records in batches of two without
`drop_last` reports three batches, and a full pass yields three. -/
theorem C2_length_agreement_witness :
    (DataLoader.mk (DatasetM.mk 5 (fun _ => [])) 2 false false).len =
      (if false then 5 / 2 else (5 + 2 - 1) / 2) ∧
    (iterGo 2 false ([] : List Nat) (List.range 5)).length =
      (DataLoader.mk (DatasetM.mk 5 (fun _ => [])) 2 false false).len ∧
    (∀ out,
      (DataLoader.mk (DatasetM.mk 5 (fun _ => [])) 2 false false).iter (List.range 5) =
        Except.ok out →
      out.length = (DataLoader.mk (DatasetM.mk 5 (fun _ => [])) 2 false false).len) :=
  C2_length_agreement (DataLoader.mk (DatasetM.mk 5 (fun _ => [])) 2 false false)
    (List.range 5) (by decide) (by simp)

/-- C3: one pass traverses the identity order or a permutation of
`0..count-1`; with `drop_last` off the records of all emitted groups are
exactly the dataset indices, each exactly once, and with `drop_last` on
exactly `floor(count / batch_size) * batch_size` distinct indices — the
longest full-batch prefix of the traversal — are covered and the remainder
is excluded. -/
theorem C3_coverage (D : DataLoader) (order : List Nat)
    (hbs : 1 ≤ D.batch_size) (hord : validOrder D order) :
    (D.drop_last = false →
      ((iterGo D.batch_size D.drop_last ([] : List Nat) order).flatten).Perm
        (List.range D.dataset.count)) ∧
    (D.drop_last = true →
      (iterGo D.batch_size D.drop_last ([] : List Nat) order).flatten =
          order.take (D.batch_size * (D.dataset.count / D.batch_size)) ∧
        (iterGo D.batch_size D.drop_last ([] : List Nat) order).flatten.Nodup ∧
        (iterGo D.batch_size D.drop_last ([] : List Nat) order).flatten.length =
          D.batch_size * (D.dataset.count / D.batch_size) ∧
        (∀ i ∈ (iterGo D.batch_size D.drop_last ([] : List Nat) order).flatten,
          i < D.dataset.count)) := by
  have hperm := validOrder_perm D order hord
  have hlen : order.length = D.dataset.count :=
    hperm.length_eq.trans (List.length_range D.dataset.count)
  constructor
  · intro hdl
    rw [hdl, iterGo_flatten_false]
    simpa using hperm
  · intro hdl
    have htake : (iterGo D.batch_size D.drop_last ([] : List Nat) order).flatten =
        order.take (D.batch_size * (D.dataset.count / D.batch_size)) := by
      rw [hdl, iterGo_flatten_true D.batch_size order [] (by simpa using hbs)]
      simp [hlen]
    have hnd : order.Nodup := hperm.nodup_iff.mpr (List.nodup_range D.dataset.count)
    have hle : D.batch_size * (D.dataset.count / D.batch_size) ≤ order.length := by
      rw [hlen, Nat.mul_comm]
      exact Nat.div_mul_le_self D.dataset.count D.batch_size
    refine ⟨htake, ?_, ?_, ?_⟩
    · rw [htake]
      exact hnd.sublist (List.take_sublist _ order)
    · rw [htake, List.length_take]
      omega
    · intro i hi
      rw [htake] at hi
      have : i ∈ order := (List.take_sublist _ order).subset hi
      have := hperm.subset this
      exact List.mem_range.mp this

/-- Witness for C3: a shuffled pass over five records in batches of two with
`drop_last` set, along the permutation 4,2,0,1,3. -/
theorem C3_coverage_witness :
    ((DataLoader.mk (DatasetM.mk 5 (fun _ => [])) 2 true true).drop_last = false →
      ((iterGo 2 true ([] : List Nat) [4, 2, 0, 1, 3]).flatten).Perm (List.range 5)) ∧
    ((DataLoader.mk (DatasetM.mk 5 (fun _ => [])) 2 true true).drop_last = true →
      (iterGo 2 true ([] : List Nat) [4, 2, 0, 1, 3]).flatten =
          [4, 2, 0, 1, 3].take (2 * (5 / 2)) ∧
        (iterGo 2 true ([] : List Nat) [4, 2, 0, 1, 3]).flatten.Nodup ∧
        (iterGo 2 true ([] : List Nat) [4, 2, 0, 1, 3]).flatten.length = 2 * (5 / 2) ∧
        (∀ i ∈ (iterGo 2 true ([] : List Nat) [4, 2, 0, 1, 3]).flatten, i < 5)) :=
  C3_coverage (DataLoader.mk (DatasetM.mk 5 (fun _ => [])) 2 true true)
    [4, 2, 0, 1, 3] (by decide) (by unfold validOrder; simp; decide)

/-- C4: every emitted group except possibly the last has exactly
`batch_size` records; with `drop_last` off and a non-zero remainder the last
group has `count mod batch_size` records, and with `drop_last` on every
emitted group is full, so a non-empty remainder group is discarded entirely
and never emitted short. -/
theorem C4_batch_sizing (D : DataLoader) (order : List Nat)
    (hbs : 1 ≤ D.batch_size) (hord : order.length = D.dataset.count) :
    (∀ g ∈ (iterGo D.batch_size D.drop_last ([] : List Nat) order).dropLast,
      g.length = D.batch_size) ∧
    (D.drop_last = false → D.dataset.count % D.batch_size ≠ 0 →
      ((iterGo D.batch_size false ([] : List Nat) order).getLast?).map List.length =
        some (D.dataset.count % D.batch_size)) ∧
    (D.drop_last = true →
      ∀ g ∈ iterGo D.batch_size true ([] : List Nat) order, g.length = D.batch_size) := by
  refine ⟨?_, ?_, ?_⟩
  · exact iterGo_dropLast_full D.batch_size D.drop_last order [] (by simpa using hbs)
  · intro _ hrem
    have h := iterGo_getLast_length D.batch_size order [] (by simpa using hbs)
      (by simpa [hord] using hrem)
    simpa [hord] using h
  · intro _
    exact iterGo_full_of_dropLast D.batch_size order [] (by simpa using hbs)

/-- Witness for C4: five records in batches of two without `drop_last`. -/
theorem C4_batch_sizing_witness :
    (∀ g ∈ (iterGo 2 false ([] : List Nat) (List.range 5)).dropLast, g.length = 2) ∧
    ((false : Bool) = false → 5 % 2 ≠ 0 →
      ((iterGo 2 false ([] : List Nat) (List.range 5)).getLast?).map List.length =
        some (5 % 2)) ∧
    ((false : Bool) = true →
      ∀ g ∈ iterGo 2 true ([] : List Nat) (List.range 5), g.length = 2) :=
  C4_batch_sizing (DataLoader.mk (DatasetM.mk 5 (fun _ => [])) 2 false false)
    (List.range 5) (by decide) (by simp)

/-- C9: a dataset reporting a count of zero iterates without crashing and
yields zero batches, and `__len__` returns zero, for every batch size of at
least one in every shuffle and `drop_last` combination. -/
theorem C9_empty_dataset (D : DataLoader) (order : List Nat)
    (hbs : 1 ≤ D.batch_size) (hcount : D.dataset.count = 0)
    (hord : validOrder D order) :
    D.len = 0 ∧
    iterGo D.batch_size D.drop_last ([] : List Nat) order = [] ∧
    D.iter order = Except.ok [] := by
  have hperm := validOrder_perm D order hord
  have hnil : order = [] := by
    have h := hperm.length_eq.trans (List.length_range D.dataset.count)
    rw [hcount] at h
    exact List.length_eq_zero.mp h
  subst hnil
  have h2 : iterGo D.batch_size D.drop_last ([] : List Nat) [] = [] := by
    rw [iterGo_nil]
    simp
  have h3 : D.iter [] = Except.ok [] := by
    unfold DataLoader.iter
    rw [h2]
    rfl
  have h1 : D.len = 0 := by
    unfold DataLoader.len
    rw [hcount]
    split_ifs
    · simp
    · simp only [Nat.zero_add]
      exact Nat.div_eq_of_lt (by omega)
  exact ⟨h1, h2, h3⟩

/-- Witness for C9: an empty dataset with batch size three, shuffling off and
`drop_last` on. -/
theorem C9_empty_dataset_witness :
    (DataLoader.mk (DatasetM.mk 0 (fun _ => [])) 3 false true).len = 0 ∧
    iterGo 3 true ([] : List Nat) [] = [] ∧
    (DataLoader.mk (DatasetM.mk 0 (fun _ => [])) 3 false true).iter [] = Except.ok [] :=
  C9_empty_dataset (DataLoader.mk (DatasetM.mk 0 (fun _ => [])) 3 false true)
    [] (by decide) rfl (by unfold validOrder; simp)

/-- C5: the identifier field is batched by parsing each value as
prefix-underscore-integer, taking the integer after the last separator, into
a 1-D float array in record order; "run_17" contributes 17 and "sample_042"
contributes 42.  The float conversion of these small integers is exact, so
the embedding keeps the parsed integers. -/
theorem C5_identifier_encoding (vs : List Val) (ids : List Int)
    (h : mapOpt runIdVal vs = some ids) :
    fieldToTensor "run_id" vs = Except.ok (TVal.floats ids) ∧
    run_id_to_int "run_17" = some 17 ∧
    run_id_to_int "sample_042" = some 42 ∧
    fieldToTensor "run_id" [Val.str "run_17", Val.str "sample_042"] =
      Except.ok (TVal.floats [17, 42]) := by
  refine ⟨?_, rfl, rfl, rfl⟩
  unfold fieldToTensor
  rw [if_pos rfl, h]

/-- Witness for C5 at a concrete input. -/
theorem C5_identifier_encoding_witness :
    fieldToTensor "run_id" [Val.str "run_17"] = Except.ok (TVal.floats [17]) :=
  (C5_identifier_encoding [Val.str "run_17"] [17] rfl).1

/-- C6 counterexample: a batch formed from exactly one record whose field
value is not already a Tensor is emitted as a bare coerced array of the
record's own shape — the leading batch dimension of size 1 that the claim
requires for every single-record batch is missing. -/
theorem C6_single_record_counterexample :
    fieldToTensor "x" [Val.arr false [3, 4]] = Except.ok (TVal.tensor [3, 4]) ∧
    TVal.tensor [3, 4] ≠ TVal.tensor [1, 3, 4] :=
  ⟨rfl, by decide⟩

/-- C6 amended: a single-record batch gets a leading batch dimension of
size 1 for a non-identifier field whose value is already a Tensor (stacking a
one-element list succeeds); when the single value is not a Tensor the
fallback coerces it to a tensor of its own shape, without a leading batch
dimension. -/
theorem C6_single_record_amended (k : String) (s : List Nat) (hk : k ≠ "run_id") :
    fieldToTensor k [Val.arr true s] = Except.ok (TVal.tensor (1 :: s)) ∧
    fieldToTensor k [Val.arr false s] = Except.ok (TVal.tensor s) := by
  constructor
  · unfold fieldToTensor
    rw [if_neg hk]
    simp [stackShapes]
  · unfold fieldToTensor
    rw [if_neg hk]
    simp [stackShapes, tensorFallback]

/-- Witness for the amended C6 at a concrete input. -/
theorem C6_single_record_amended_witness :
    fieldToTensor "x" [Val.arr true [3, 4]] = Except.ok (TVal.tensor [1, 3, 4]) ∧
    fieldToTensor "x" [Val.arr false [3, 4]] = Except.ok (TVal.tensor [3, 4]) :=
  C6_single_record_amended "x" [3, 4] (by decide)

/-- C7: a group whose identifier field holds a value without a parseable
trailing integer after the last separator makes the combination step fail
hard: `int(run_id.split("_")[-1])` raises outside every try block, so the
error propagates from `batch_to_tensor` and no numeric default is
produced. -/
theorem C7_identifier_error (vs : List Val)
    (h : ∃ v ∈ vs, runIdVal v = none) :
    fieldToTensor "run_id" vs = Except.error BatchErr.identifierFormat ∧
    batch_to_tensor [("run_id", vs)] = Except.error BatchErr.identifierFormat := by
  obtain ⟨v, hv, hf⟩ := h
  have hm := mapOpt_eq_none runIdVal hv hf
  have h1 : fieldToTensor "run_id" vs = Except.error BatchErr.identifierFormat := by
    unfold fieldToTensor
    rw [if_pos rfl, hm]
  refine ⟨h1, ?_⟩
  unfold batch_to_tensor traverseExcept
  simp [h1, Except.map]

/-- Witness for C7 at a concrete input. -/
theorem C7_identifier_error_witness :
    fieldToTensor "run_id" [Val.str "run_x"] = Except.error BatchErr.identifierFormat ∧
    batch_to_tensor [("run_id", [Val.str "run_x"])] = Except.error BatchErr.identifierFormat :=
  C7_identifier_error [Val.str "run_x"] ⟨Val.str "run_x", List.mem_singleton.mpr rfl, rfl⟩

/-- C8 counterexample: a group of two records whose field values are not
already Tensors is not stacked — `torch.stack` raises on the non-Tensor
elements, the bare `except:` keeps only the first value, and the emitted
batch holds a tensor of that single value's shape (2,) instead of an array
holding both records (shape (2,2)); the claim that the coercion loses no
records is false. -/
theorem C8_coercion_counterexample :
    fieldToTensor "x" [Val.arr false [2], Val.arr false [2]] = Except.ok (TVal.tensor [2]) ∧
    TVal.tensor [2] ≠ TVal.tensor [2, 2] :=
  ⟨rfl, by decide⟩

/-- C8 amended: when the first value of a non-identifier field is not
already a Tensor the combination step indeed does not fail, but it emits
only that first value coerced to a tensor of its own shape; every later
record of the group is silently dropped, so the coercion keeps all records
only for single-record groups. -/
theorem C8_coercion_amended (k : String) (s : List Nat) (rest : List Val)
    (hk : k ≠ "run_id") :
    fieldToTensor k (Val.arr false s :: rest) = Except.ok (TVal.tensor s) := by
  unfold fieldToTensor
  rw [if_neg hk]
  simp [stackShapes, tensorFallback]

/-- Witness for the amended C8 at a concrete input. -/
theorem C8_coercion_amended_witness :
    fieldToTensor "x" [Val.arr false [2], Val.arr false [2]] = Except.ok (TVal.tensor [2]) :=
  C8_coercion_amended "x" [2] [Val.arr false [2]] (by decide)

/-- Appending a value under a key leaves every other key unchanged. -/
theorem lookupK_insertVal_ne (k k2 : String) (v : Val) (h : k2 ≠ k) :
    ∀ bd : List (String × List Val), lookupK k (insertVal bd k2 v) = lookupK k bd := by
  intro bd
  induction bd with
  | nil => simp [insertVal, lookupK, h]
  | cons p rest ih =>
    obtain ⟨k3, vs⟩ := p
    by_cases h3 : k3 = k2
    · subst h3
      simp [insertVal, lookupK, h]
    · by_cases h4 : k3 = k
      · subst h4
        simp [insertVal, lookupK, h3]
      · simp [insertVal, lookupK, h3, h4, ih]

/-- Appending a value under a key appends it to that key's list, creating
the list when the key is new. -/
theorem lookupK_insertVal_self (k : String) (v : Val) :
    ∀ bd : List (String × List Val),
      lookupK k (insertVal bd k v) = some ((lookupK k bd).getD [] ++ [v]) := by
  intro bd
  induction bd with
  | nil => simp [insertVal, lookupK]
  | cons p rest ih =>
    obtain ⟨k3, vs⟩ := p
    by_cases h3 : k3 = k
    · subst h3
      simp [insertVal, lookupK]
    · simp [insertVal, lookupK, h3, ih]

/-- Folding one record into the accumulated dict: a key the record holds
gains exactly that one value at the end of its list, every other key is
untouched.  The record's keys must be distinct, as Python dict keys are. -/
theorem lookupK_foldRecord (k : String) :
    ∀ (r : Record), (r.map Prod.fst).Nodup →
      ∀ bd : List (String × List Val),
        lookupK k (foldRecord bd r) =
          match lookupK k r with
          | some v => some ((lookupK k bd).getD [] ++ [v])
          | none => lookupK k bd := by
  intro r
  induction r with
  | nil =>
    intro _ bd
    simp [foldRecord, lookupK]
  | cons kv r2 ih =>
    intro hnd bd
    obtain ⟨k1, v1⟩ := kv
    have hstep : foldRecord bd ((k1, v1) :: r2) = foldRecord (insertVal bd k1 v1) r2 := rfl
    rw [hstep]
    have hnd2 : (r2.map Prod.fst).Nodup := (List.nodup_cons.mp hnd).2
    rw [ih hnd2 (insertVal bd k1 v1)]
    by_cases h1 : k1 = k
    · subst h1
      have hnotin : lookupK k1 r2 = none := by
        have hmem : k1 ∉ r2.map Prod.fst := (List.nodup_cons.mp hnd).1
        clear ih hnd hnd2 hstep
        induction r2 with
        | nil => rfl
        | cons q r3 ih3 =>
          obtain ⟨k4, v4⟩ := q
          simp only [List.map_cons, List.mem_cons] at hmem
          push_neg at hmem
          have hne : ¬k4 = k1 := fun hh => hmem.1 hh.symm
          simp only [lookupK]
          rw [if_neg hne]
          exact ih3 hmem.2
      rw [hnotin, lookupK_insertVal_self]
      simp [lookupK]
    · rw [lookupK_insertVal_ne k k1 v1 h1]
      simp [lookupK, h1]

/-- C10: records with differing key sets re-group without any error: the
combined dict's key set is the union of the records' key sets, and each key
maps to the values of exactly those records that contain it, in record
order.  `combine_batch_dicts` is a total function of the embedding, so no
error condition exists; records carry distinct keys, as Python dicts do. -/
theorem C10_regrouping (batch : List Record) (k : String)
    (hnd : ∀ r ∈ batch, (r.map Prod.fst).Nodup) :
    (lookupK k (combine_batch_dicts batch)).getD [] =
        batch.filterMap (fun r => lookupK k r) ∧
    (lookupK k (combine_batch_dicts batch) = none ↔
        ∀ r ∈ batch, lookupK k r = none) := by
  unfold combine_batch_dicts
  suffices h : ∀ (bd : List (String × List Val)),
      (∀ r ∈ batch, (r.map Prod.fst).Nodup) →
      (lookupK k (batch.foldl foldRecord bd)).getD [] =
          (lookupK k bd).getD [] ++ batch.filterMap (fun r => lookupK k r) ∧
      (lookupK k (batch.foldl foldRecord bd) = none ↔
          lookupK k bd = none ∧ ∀ r ∈ batch, lookupK k r = none) by
    have h2 := h [] hnd
    simp only [lookupK] at h2
    constructor
    · simpa using h2.1
    · rw [h2.2]
      simp
  clear hnd
  induction batch with
  | nil =>
    intro bd _
    simp
  | cons r batch2 ih =>
    intro bd hnd
    have hr := hnd r (List.mem_cons_self r batch2)
    have hnd2 : ∀ r2 ∈ batch2, (r2.map Prod.fst).Nodup := by
      intro r2 hr2
      exact hnd r2 (List.mem_cons_of_mem r hr2)
    have hstep : (r :: batch2).foldl foldRecord bd = batch2.foldl foldRecord (foldRecord bd r) :=
      rfl
    rw [hstep]
    obtain ⟨ih1, ih2⟩ := ih (foldRecord bd r) hnd2
    have hfold := lookupK_foldRecord k r hr bd
    constructor
    · rw [ih1]
      cases hrk : lookupK k r with
      | none =>
        rw [hrk] at hfold
        simp [hfold, hrk]
      | some v =>
        rw [hrk] at hfold
        simp [hfold, hrk]
    · rw [ih2]
      cases hrk : lookupK k r with
      | none =>
        rw [hrk] at hfold
        simp [hfold, hrk]
      | some v =>
        rw [hrk] at hfold
        simp [hfold, hrk]

/-- Witness for C10: two one-field records with disjoint keys. -/
theorem C10_regrouping_witness :
    (lookupK "a" (combine_batch_dicts [[("a", Val.str "u")], [("b", Val.str "v")]])).getD [] =
        ([[("a", Val.str "u")], [("b", Val.str "v")]] : List Record).filterMap
          (fun r => lookupK "a" r) ∧
    (lookupK "a" (combine_batch_dicts [[("a", Val.str "u")], [("b", Val.str "v")]]) = none ↔
        ∀ r ∈ ([[("a", Val.str "u")], [("b", Val.str "v")]] : List Record),
          lookupK "a" r = none) :=
  C10_regrouping [[("a", Val.str "u")], [("b", Val.str "v")]] "a" (by simp)

end DL
